import Mathlib

/-!
Verification of the batching and CSV-aggregation core of
`extract-flash-cards` (`extractflashcards/main.py`).

Text is modelled as `List Char`; `len` on a Python string corresponds to
`List.length`.  The function `split_text_into_batches` and the
row-aggregation loop of `main` are embedded below, and the spec's stated
properties are proved about them.
-/

namespace ExtractFlashCards

/-- The characters Python's `str.splitlines` treats as line boundaries
(besides the two-character sequence `"\r\n"`, handled separately). -/
def isLineBoundary (c : Char) : Bool :=
  c == '\n' || c == '\r' || c == '\x0B' || c == '\x0C' ||
  c == '\x1C' || c == '\x1D' || c == '\x1E' || c == '\x85' ||
  c == '\u2028' || c == '\u2029'

/-- Accumulator-passing core of `splitlines`: `acc` holds the current
line's characters in reverse. -/
def splitlinesAux : List Char → List Char → List (List Char)
  | acc, [] => if acc.isEmpty then [] else [acc.reverse]
  | acc, c :: rest =>
    if isLineBoundary c then
      match rest with
      | d :: rest' =>
        if c == '\r' && d == '\n' then (acc.reverse ++ [c, d]) :: splitlinesAux [] rest'
        else (acc.reverse ++ [c]) :: splitlinesAux [] (d :: rest')
      | [] => (acc.reverse ++ [c]) :: splitlinesAux [] []
    else splitlinesAux (c :: acc) rest

/-- Python's `text.splitlines(keepends=True)`: split into lines, each
keeping its terminator; the final line may lack one. -/
def splitlines (text : List Char) : List (List Char) :=
  splitlinesAux [] text

/-- The data carried by the error message
`f"The line {i + 1} is too long (got {len(line)}, max. is {max_batch_length})."` -/
structure LineTooLong where
  lineNumber : Nat
  got : Nat
  max : Nat
deriving Repr, DecidableEq

/-- The `for i, line in enumerate(...)` loop of `split_text_into_batches`,
with the Python locals `result`, `batch_parts`, `current_len` passed
explicitly.  `i` is the current 0-based line index. -/
def splitLoop (maxLen : Nat) (i : Nat) (result : List (List Char))
    (batchParts : List (List Char)) (currentLen : Nat) :
    List (List Char) → Option (List (List Char)) × Option LineTooLong
  | [] =>
    (some (if batchParts.length > 0 then result ++ [batchParts.flatten] else result), none)
  | line :: rest =>
    if line.length > maxLen then
      (none, some ⟨i + 1, line.length, maxLen⟩)
    else if currentLen + line.length > maxLen then
      splitLoop maxLen (i + 1) (result ++ [batchParts.flatten]) [line] line.length rest
    else
      splitLoop maxLen (i + 1) result (batchParts ++ [line]) (currentLen + line.length) rest

/-- `split_text_into_batches(text, max_batch_length)`: split the text into
batches of whole lines, or return an error if a single line is too long. -/
def split_text_into_batches (text : List Char) (maxBatchLength : Nat) :
    Option (List (List Char)) × Option LineTooLong :=
  splitLoop maxBatchLength 0 [] [] 0 (splitlines text)

/-- A parsed CSV record: the list of its fields, as produced by
`csv.reader` for one row of an answer blob. -/
abbrev Row := List String

/-- The `for row in reader` body of `main`, folded over the rows of one
answer blob: `observed` is the Python set `observed_set` (as a list of the
keys added so far), `out` is the sequence of rows written by
`writer.writerow` so far.  `word = row[0]` on an empty row raises
`IndexError`, modelled as `none`. -/
def aggRows : List String → List Row → List Row → Option (List String × List Row)
  | observed, out, [] => some (observed, out)
  | observed, out, row :: rest =>
    match row with
    | [] => none
    | word :: _ =>
      if word ∈ observed then aggRows observed out rest
      else aggRows (word :: observed) (out ++ [row]) rest

/-- The aggregation loop of `main` over the whole run: one entry of
`blobs` per (batch, category) pair, in processing order; `observed_set`
and the output stream persist across all of them. -/
def aggBlobs : List String → List Row → List (List Row) → Option (List String × List Row)
  | observed, out, [] => some (observed, out)
  | observed, out, blob :: rest =>
    match aggRows observed out blob with
    | none => none
    | some (observed', out') => aggBlobs observed' out' rest

/-- The ResultTable of a run: the rows written to the CSV output (header
excluded), or `none` if the loop raises. -/
def aggregate (blobs : List (List Row)) : Option (List Row) :=
  (aggBlobs [] [] blobs).map Prod.snd

/-- Specification-side definition (from the spec's words, for the
refinement claims): first-occurrence-wins deduplication of a record
sequence by the exact value of field 1, with `seen` the keys already
observed. -/
def specDedup : List String → List Row → List Row
  | _, [] => []
  | seen, row :: rest =>
    match row with
    | [] => specDedup seen rest
    | word :: _ =>
      if word ∈ seen then specDedup seen rest
      else row :: specDedup (word :: seen) rest

/-- The seen-key set after feeding a record sequence to `specDedup`. -/
def specSeen : List String → List Row → List String
  | seen, [] => seen
  | seen, row :: rest =>
    match row with
    | [] => specSeen seen rest
    | word :: _ =>
      if word ∈ seen then specSeen seen rest
      else specSeen (word :: seen) rest

/-- Specification-side definition: the first-seen order of a key
sequence — each key kept at its first occurrence, later duplicates
dropped. -/
def firstSeenKeys : List String → List String → List String
  | _, [] => []
  | seen, k :: rest =>
    if k ∈ seen then firstSeenKeys seen rest
    else k :: firstSeenKeys (k :: seen) rest

/-! ## Lemmas about `splitlines` -/

lemma splitlinesAux_flatten (acc s : List Char) :
    (splitlinesAux acc s).flatten = acc.reverse ++ s := by
  induction acc, s using splitlinesAux.induct with
  | case1 acc h => simp [splitlinesAux, List.isEmpty_iff.mp h]
  | case2 acc h => simp [splitlinesAux, h]
  | case3 acc c hb d rest' hrn ih => simp [splitlinesAux, hb, hrn, ih]
  | case4 acc c hb d rest' hrn ih => simp [splitlinesAux, hb, hrn, ih]
  | case5 acc c hb ih => simp [splitlinesAux, hb]
  | case6 acc c rest hb ih => cases rest <;> simp_all [splitlinesAux, hb]

/-- Concatenating the lines of `splitlines` (keepends) restores the text. -/
lemma splitlines_flatten (text : List Char) :
    (splitlines text).flatten = text := by
  simpa using splitlinesAux_flatten [] text

lemma splitlinesAux_ne_nil (acc s : List Char) :
    ∀ l ∈ splitlinesAux acc s, l ≠ [] := by
  induction acc, s using splitlinesAux.induct with
  | case1 acc h => simp [splitlinesAux, h]
  | case2 acc h => simp_all [splitlinesAux, List.isEmpty_iff]
  | case3 acc c hb d rest' hrn ih =>
    simp [splitlinesAux, hb, hrn]
    exact fun a ha => ih a ha
  | case4 acc c hb d rest' hrn ih =>
    simp [splitlinesAux, hb, hrn]
    exact fun a ha => ih a ha
  | case5 acc c hb ih => simp [splitlinesAux, hb]
  | case6 acc c rest hb ih =>
    cases rest <;> simp_all [splitlinesAux, List.isEmpty_iff]

/-- `splitlines` never produces an empty line. -/
lemma splitlines_ne_nil (text : List Char) :
    ∀ l ∈ splitlines text, l ≠ [] :=
  splitlinesAux_ne_nil [] text

/-! ## Lemmas about the batching loop -/

/-- Every exit of the loop carries exactly one of result and error. -/
lemma splitLoop_isSome (lines : List (List Char)) :
    ∀ maxLen i res parts len,
      (splitLoop maxLen i res parts len lines).1.isSome
        = !(splitLoop maxLen i res parts len lines).2.isSome := by
  induction lines with
  | nil => intro maxLen i res parts len; simp [splitLoop]
  | cons line rest ih =>
    intro maxLen i res parts len
    simp only [splitLoop]
    split
    · simp
    · split <;> apply ih

/-- Loop invariant for the round-trip property: on success, the flattened
batches extend the already-flushed and pending material by the remaining
lines. -/
lemma splitLoop_flatten (lines : List (List Char)) :
    ∀ maxLen i res parts len bs,
      (splitLoop maxLen i res parts len lines).1 = some bs →
      bs.flatten = res.flatten ++ parts.flatten ++ lines.flatten := by
  induction lines with
  | nil =>
    intro maxLen i res parts len bs h
    simp only [splitLoop, Option.some.injEq] at h
    subst h
    split
    · simp
    · next h0 =>
      have : parts = [] := List.length_eq_zero.mp (by omega)
      simp [this]
  | cons line rest ih =>
    intro maxLen i res parts len bs h
    simp only [splitLoop] at h
    split at h
    · simp at h
    · split at h
      · have := ih _ _ _ _ _ _ h
        simp only [this]
        simp [List.append_assoc]
      · have := ih _ _ _ _ _ _ h
        simp only [this]
        simp [List.append_assoc]

/-- Loop invariant for the length bound: on success, every batch fits in
`maxLen`, provided the pending accumulator does and everything flushed so
far does. -/
lemma splitLoop_bound (lines : List (List Char)) :
    ∀ maxLen i res parts len bs,
      parts.flatten.length = len → len ≤ maxLen →
      (∀ b ∈ res, b.length ≤ maxLen) →
      (splitLoop maxLen i res parts len lines).1 = some bs →
      ∀ b ∈ bs, b.length ≤ maxLen := by
  induction lines with
  | nil =>
    intro maxLen i res parts len bs hlen hle hres h
    simp only [splitLoop, Option.some.injEq] at h
    subst h
    split <;> intro b hb
    · rcases List.mem_append.mp hb with hb | hb
      · exact hres b hb
      · simp at hb; subst hb; omega
    · exact hres b hb
  | cons line rest ih =>
    intro maxLen i res parts len bs hlen hle hres h
    simp only [splitLoop] at h
    split at h
    · simp at h
    · next h1 =>
      split at h
      · next h2 =>
        refine ih _ _ _ _ _ _ (by simp) (by omega) ?_ h
        intro b hb
        rcases List.mem_append.mp hb with hb | hb
        · exact hres b hb
        · simp at hb; subst hb; omega
      · next h2 =>
        exact ih _ _ _ _ _ _ (by simp [hlen]) (by omega) hres h

/-- Loop invariant for batch non-emptiness: on success, no emitted batch
is the empty string. -/
lemma splitLoop_ne_nil (lines : List (List Char)) :
    ∀ maxLen i res parts len bs,
      (∀ l ∈ lines, l ≠ []) →
      parts.flatten.length = len →
      (parts ≠ [] → parts.flatten ≠ []) →
      (∀ b ∈ res, b ≠ []) →
      (splitLoop maxLen i res parts len lines).1 = some bs →
      ∀ b ∈ bs, b ≠ [] := by
  induction lines with
  | nil =>
    intro maxLen i res parts len bs hlines hlen hparts hres h
    simp only [splitLoop, Option.some.injEq] at h
    subst h
    split <;> intro b hb
    · next h0 =>
      rcases List.mem_append.mp hb with hb | hb
      · exact hres b hb
      · simp at hb; subst hb
        exact hparts (by intro he; subst he; simp at h0)
    · exact hres b hb
  | cons line rest ih =>
    intro maxLen i res parts len bs hlines hlen hparts hres h
    have hline : line ≠ [] := hlines line (by simp)
    simp only [splitLoop] at h
    split at h
    · simp at h
    · next h1 =>
      split at h
      · next h2 =>
        have hlen0 : 0 < len := by
          have : line.length ≤ maxLen := by omega
          omega
        refine ih _ _ _ _ _ _ (fun l hl => hlines l (by simp [hl]))
          (by simp) (by simp [hline]) ?_ h
        intro b hb
        rcases List.mem_append.mp hb with hb | hb
        · exact hres b hb
        · simp at hb; subst hb
          intro he
          rw [he] at hlen
          simp at hlen
          omega
      · next h2 =>
        refine ih _ _ _ _ _ _ (fun l hl => hlines l (by simp [hl]))
          (by simp [hlen]) ?_ hres h
        intro _ he
        simp at he
        exact hline he.2

/-- If every line before `bad` fits and `bad` does not, the loop aborts at
`bad` with the 1-based index, observed length and maximum. -/
lemma splitLoop_err (pre : List (List Char)) :
    ∀ maxLen i res parts len bad post,
      (∀ l ∈ pre, l.length ≤ maxLen) → maxLen < bad.length →
      splitLoop maxLen i res parts len (pre ++ bad :: post) =
        (none, some ⟨i + pre.length + 1, bad.length, maxLen⟩) := by
  induction pre with
  | nil =>
    intro maxLen i res parts len bad post _ hbad
    simp only [List.nil_append, splitLoop]
    rw [if_pos (by omega)]
    simp
  | cons l pre' ih =>
    intro maxLen i res parts len bad post hpre hbad
    have hl : ¬ l.length > maxLen := by
      have := hpre l (by simp)
      omega
    simp only [List.cons_append, splitLoop, if_neg hl]
    have hrec : ∀ res' parts' len',
        splitLoop maxLen (i + 1) res' parts' len' (pre' ++ bad :: post) =
          (none, some ⟨i + 1 + pre'.length + 1, bad.length, maxLen⟩) :=
      fun res' parts' len' =>
        ih maxLen (i + 1) res' parts' len' bad post
          (fun x hx => hpre x (by simp [hx])) hbad
    split <;> simp only [List.append_eq] <;> rw [hrec] <;> simp <;> omega

/-! ## Lemmas about the aggregation loop -/

lemma aggRows_append (xs ys : List Row) :
    ∀ s u, aggRows s u (xs ++ ys) =
      (aggRows s u xs).bind fun p => aggRows p.1 p.2 ys := by
  induction xs with
  | nil => intro s u; simp [aggRows]
  | cons row rest ih =>
    intro s u
    cases row with
    | nil => simp [aggRows]
    | cons w tl =>
      by_cases hw : w ∈ s
      · simp [aggRows, hw, ih]
      · simp [aggRows, hw, ih]

/-- Folding the per-blob loop over all blobs is the same as one pass over
the concatenated record stream: `observed_set` and the output persist
across blob boundaries. -/
lemma aggBlobs_eq_flatten (bs : List (List Row)) :
    ∀ s u, aggBlobs s u bs = aggRows s u bs.flatten := by
  induction bs with
  | nil => intro s u; simp [aggBlobs, aggRows]
  | cons blob rest ih =>
    intro s u
    rw [List.flatten_cons, aggRows_append]
    cases h : aggRows s u blob with
    | none => simp [aggBlobs, h]
    | some p =>
      obtain ⟨s', u'⟩ := p
      simp [aggBlobs, h, ih]

/-- On success, the loop's final state is the spec-side seen set and the
previous output extended by the first-occurrence dedup of the records. -/
lemma aggRows_spec (rows : List Row) :
    ∀ s u p, aggRows s u rows = some p →
      p.1 = specSeen s rows ∧ p.2 = u ++ specDedup s rows := by
  induction rows with
  | nil =>
    intro s u p h
    simp only [aggRows, Option.some.injEq] at h
    subst h
    simp [specSeen, specDedup]
  | cons row rest ih =>
    intro s u p h
    cases row with
    | nil => simp [aggRows] at h
    | cons w tl =>
      by_cases hw : w ∈ s
      · simp only [aggRows, if_pos hw] at h
        obtain ⟨h1, h2⟩ := ih _ _ _ h
        simp [specSeen, specDedup, hw, h1, h2]
      · simp only [aggRows, if_neg hw] at h
        obtain ⟨h1, h2⟩ := ih _ _ _ h
        simp [specSeen, specDedup, hw, h1, h2]

/-- The loop succeeds whenever no record is empty (`row[0]` never raises). -/
lemma aggRows_isSome (rows : List Row) :
    ∀ s u, (∀ r ∈ rows, r ≠ []) → (aggRows s u rows).isSome := by
  induction rows with
  | nil => intro s u _; simp [aggRows]
  | cons row rest ih =>
    intro s u hne
    cases row with
    | nil => exact absurd rfl (hne [] (by simp))
    | cons w tl =>
      by_cases hw : w ∈ s
      · simpa [aggRows, hw] using ih _ _ (fun r hr => hne r (by simp [hr]))
      · simpa [aggRows, hw] using ih _ _ (fun r hr => hne r (by simp [hr]))

/-- Conversely, success means no record of the stream was empty. -/
lemma aggRows_ne_nil (rows : List Row) :
    ∀ s u p, aggRows s u rows = some p → ∀ r ∈ rows, r ≠ [] := by
  induction rows with
  | nil => intro s u p _; simp
  | cons row rest ih =>
    intro s u p h
    cases row with
    | nil => simp [aggRows] at h
    | cons w tl =>
      by_cases hw : w ∈ s
      · simp only [aggRows, if_pos hw] at h
        intro r hr
        rcases List.mem_cons.mp hr with hr | hr
        · simp [hr]
        · exact ih _ _ _ h r hr
      · simp only [aggRows, if_neg hw] at h
        intro r hr
        rcases List.mem_cons.mp hr with hr | hr
        · simp [hr]
        · exact ih _ _ _ h r hr

/-- Every record kept by the dedup appears in the input stream. -/
lemma specDedup_mem (rows : List Row) :
    ∀ seen r, r ∈ specDedup seen rows → r ∈ rows := by
  induction rows with
  | nil => intro seen r h; simp [specDedup] at h
  | cons row rest ih =>
    intro seen r h
    cases row with
    | nil => exact List.mem_cons_of_mem _ (ih _ _ (by simpa [specDedup] using h))
    | cons w tl =>
      by_cases hw : w ∈ seen
      · simp only [specDedup, if_pos hw] at h
        exact List.mem_cons_of_mem _ (ih _ _ h)
      · simp only [specDedup, if_neg hw] at h
        rcases List.mem_cons.mp h with h | h
        · simp [h]
        · exact List.mem_cons_of_mem _ (ih _ _ h)

/-- On a stream of non-empty records, the keys kept by the dedup are the
first-seen order of the stream's keys. -/
lemma specDedup_keys (rows : List Row) :
    ∀ seen, (∀ r ∈ rows, r ≠ []) →
      (specDedup seen rows).map List.headI =
        firstSeenKeys seen (rows.map List.headI) := by
  induction rows with
  | nil => intro seen _; simp [specDedup, firstSeenKeys]
  | cons row rest ih =>
    intro seen hne
    cases row with
    | nil => exact absurd rfl (hne [] (by simp))
    | cons w tl =>
      have ih' := fun seen' => ih seen' (fun r hr => hne r (by simp [hr]))
      by_cases hw : w ∈ seen
      · simp [specDedup, firstSeenKeys, hw, ih']
      · simp [specDedup, firstSeenKeys, hw, ih']

/-- The drop/emit pattern of the dedup depends only on the key sequence:
streams with the same sequence of first fields dedup to records with the
same sequence of first fields. -/
lemma specDedup_congr (rows₁ : List Row) :
    ∀ rows₂ seen, rows₁.map List.head? = rows₂.map List.head? →
      (specDedup seen rows₁).map List.head? =
        (specDedup seen rows₂).map List.head? := by
  induction rows₁ with
  | nil =>
    intro rows₂ seen h
    cases rows₂ <;> simp_all
  | cons r₁ rest₁ ih =>
    intro rows₂ seen h
    cases rows₂ with
    | nil => simp at h
    | cons r₂ rest₂ =>
      simp only [List.map_cons, List.cons.injEq] at h
      obtain ⟨hh, ht⟩ := h
      cases r₁ with
      | nil =>
        cases r₂ with
        | nil => simp [specDedup, ih _ _ ht]
        | cons w₂ tl₂ => simp at hh
      | cons w₁ tl₁ =>
        cases r₂ with
        | nil => simp at hh
        | cons w₂ tl₂ =>
          simp only [List.head?_cons, Option.some.injEq] at hh
          subst hh
          by_cases hw : w₁ ∈ seen
          · simp [specDedup, hw, ih _ _ ht]
          · simp [specDedup, hw, ih _ _ ht]

/-- On success of the whole run, the ResultTable is exactly the
first-occurrence dedup of the concatenated record stream. -/
lemma aggregate_eq_specDedup (blobs : List (List Row)) (out : List Row)
    (h : aggregate blobs = some out) : out = specDedup [] blobs.flatten := by
  unfold aggregate at h
  cases hb : aggBlobs [] [] blobs with
  | none => rw [hb] at h; simp at h
  | some p =>
    rw [hb] at h
    have hpe : p.2 = out := by simpa using h
    rw [aggBlobs_eq_flatten] at hb
    have h2 := (aggRows_spec _ _ _ _ hb).2
    rw [← hpe, h2]
    simp

/-- On success of the whole run, no record of the stream was empty. -/
lemma aggregate_rows_ne_nil (blobs : List (List Row)) (out : List Row)
    (h : aggregate blobs = some out) : ∀ r ∈ blobs.flatten, r ≠ [] := by
  unfold aggregate at h
  cases hb : aggBlobs [] [] blobs with
  | none => rw [hb] at h; simp at h
  | some p =>
    rw [aggBlobs_eq_flatten] at hb
    exact aggRows_ne_nil _ _ _ _ hb

/-! ## Claim theorems -/

/-- Claim C1: for every text and every maxBatchLength > 0, if
`split_text_into_batches` returns a batch list (no error), concatenating
the batches in order yields exactly the original text. -/
theorem split_roundtrip (text : List Char) (maxBatchLength : Nat)
    (hpos : 0 < maxBatchLength) (bs : List (List Char))
    (h : (split_text_into_batches text maxBatchLength).1 = some bs) :
    bs.flatten = text := by
  have := splitLoop_flatten (splitlines text) maxBatchLength 0 [] [] 0 bs h
  simpa [splitlines_flatten] using this

/-- Witness for C1 at `"ab\ncd"` with maxBatchLength 3. -/
theorem split_roundtrip_witness :
    (["ab\n".toList, "cd".toList] : List (List Char)).flatten = "ab\ncd".toList :=
  split_roundtrip "ab\ncd".toList 3 (by decide) ["ab\n".toList, "cd".toList] (by decide)

/-- Claim C2: for every text and every maxBatchLength > 0, on success
every returned batch has length at most maxBatchLength. -/
theorem split_batch_bound (text : List Char) (maxBatchLength : Nat)
    (hpos : 0 < maxBatchLength) (bs : List (List Char))
    (h : (split_text_into_batches text maxBatchLength).1 = some bs) :
    ∀ b ∈ bs, b.length ≤ maxBatchLength :=
  splitLoop_bound (splitlines text) maxBatchLength 0 [] [] 0 bs
    (by simp) (by omega) (by simp) h

/-- Witness for C2 at `"ab\ncd"` with maxBatchLength 3, batch `"ab\n"`. -/
theorem split_batch_bound_witness : ("ab\n".toList).length ≤ 3 :=
  split_batch_bound "ab\ncd".toList 3 (by decide) ["ab\n".toList, "cd".toList]
    (by decide) "ab\n".toList (by simp)

/-- Claim C3: the aggregation loop dedups by the exact value of field 1,
with the seen-key set persisting across all batches and categories: on
success the ResultTable is exactly the first-occurrence-wins dedup of the
whole record stream, each kept record at its first-seen position and all
later records with a seen key dropped. -/
theorem agg_dedup_first_seen (blobs : List (List Row)) (out : List Row)
    (h : aggregate blobs = some out) :
    out = specDedup [] blobs.flatten :=
  aggregate_eq_specDedup blobs out h

/-- Witness for C3: the same 4-column record in two different batches
yields exactly one output record, at the position of first occurrence. -/
theorem agg_dedup_first_seen_witness :
    ([["a", "b", "c", "d"]] : List Row) =
      specDedup []
        ([[["a", "b", "c", "d"]], [["a", "b", "c", "d"]]] : List (List Row)).flatten :=
  agg_dedup_first_seen [[["a", "b", "c", "d"]], [["a", "b", "c", "d"]]]
    [["a", "b", "c", "d"]] (by decide)

/-- Counterexample to claim C4 as stated: a blob with one 3-field record
amid well-formed 4-field records aggregates to a table that also contains
the 3-field record — the loop performs no field-count validation, so the
output does not contain only the 4-field records. -/
theorem agg_malformed_cex :
    aggregate [[["a", "b", "c", "d"], ["x", "y", "z"], ["e", "f", "g", "h"]]] =
        some [["a", "b", "c", "d"], ["x", "y", "z"], ["e", "f", "g", "h"]] ∧
      ¬ ∀ r ∈ ([["a", "b", "c", "d"], ["x", "y", "z"], ["e", "f", "g", "h"]] : List Row),
          r.length = 4 := by
  decide

/-- Claim C4 (amended): a blob with one 3-field record amid well-formed
4-field records (all with distinct keys) aggregates with no fatal error to
a table containing all of the records, the 3-field record included,
emitted unchanged. -/
theorem agg_malformed_tolerated (r₁ r₂ r₃ : Row)
    (h₁ : r₁.length = 4) (h₂ : r₂.length = 3) (h₃ : r₃.length = 4)
    (k₁₂ : r₁.head? ≠ r₂.head?) (k₁₃ : r₁.head? ≠ r₃.head?)
    (k₂₃ : r₂.head? ≠ r₃.head?) :
    aggregate [[r₁, r₂, r₃]] = some [r₁, r₂, r₃] := by
  cases r₁ with
  | nil => simp at h₁
  | cons w₁ t₁ =>
    cases r₂ with
    | nil => simp at h₂
    | cons w₂ t₂ =>
      cases r₃ with
      | nil => simp at h₃
      | cons w₃ t₃ =>
        simp only [List.head?_cons, ne_eq, Option.some.injEq] at k₁₂ k₁₃ k₂₃
        have hw21 : ¬ w₂ = w₁ := fun he => k₁₂ he.symm
        have hw31 : ¬ w₃ = w₁ := fun he => k₁₃ he.symm
        have hw32 : ¬ w₃ = w₂ := fun he => k₂₃ he.symm
        simp [aggregate, aggBlobs, aggRows, hw21, hw31, hw32]

/-- Witness for the amended C4 at a concrete blob. -/
theorem agg_malformed_tolerated_witness :
    aggregate [[["u", "b", "c", "d"], ["v", "y", "z"], ["w", "f", "g", "h"]]] =
      some [["u", "b", "c", "d"], ["v", "y", "z"], ["w", "f", "g", "h"]] :=
  agg_malformed_tolerated ["u", "b", "c", "d"] ["v", "y", "z"] ["w", "f", "g", "h"]
    (by decide) (by decide) (by decide) (by decide) (by decide) (by decide)

/-- Claim C5: if a line of the text exceeds maxBatchLength (and the lines
before it fit), the split aborts with no batches and an error carrying the
1-based line number of the offending line, its observed length and the
maximum. -/
theorem split_line_too_long (text : List Char) (maxBatchLength : Nat)
    (pre : List (List Char)) (bad : List Char) (post : List (List Char))
    (hsplit : splitlines text = pre ++ bad :: post)
    (hpre : ∀ l ∈ pre, l.length ≤ maxBatchLength)
    (hbad : maxBatchLength < bad.length) :
    split_text_into_batches text maxBatchLength =
      (none, some ⟨pre.length + 1, bad.length, maxBatchLength⟩) := by
  unfold split_text_into_batches
  rw [hsplit, splitLoop_err pre maxBatchLength 0 [] [] 0 bad post hpre hbad]
  simp

set_option maxRecDepth 4000 in
/-- Witness for C5: line 3 of length 501 with maxBatchLength 500 gives no
batches and the error naming line 3, length 501, max 500. -/
theorem split_line_too_long_witness :
    split_text_into_batches ("ab\ncd\n".toList ++ List.replicate 501 'x') 500 =
      (none, some ⟨3, 501, 500⟩) :=
  split_line_too_long ("ab\ncd\n".toList ++ List.replicate 501 'x') 500
    ["ab\n".toList, "cd\n".toList] (List.replicate 501 'x') []
    (by decide) (by decide) (by decide)

/-- Claim C6: for every text and maxBatchLength > 0, the split returns
exactly one of a batch list or an error — never both, never neither. -/
theorem split_result_xor_error (text : List Char) (maxBatchLength : Nat)
    (hpos : 0 < maxBatchLength) :
    (split_text_into_batches text maxBatchLength).1.isSome
      = !(split_text_into_batches text maxBatchLength).2.isSome :=
  splitLoop_isSome (splitlines text) maxBatchLength 0 [] [] 0

/-- Witness for C6 at `"a"` with maxBatchLength 1. -/
theorem split_result_xor_error_witness :
    (split_text_into_batches "a".toList 1).1.isSome
      = !(split_text_into_batches "a".toList 1).2.isSome :=
  split_result_xor_error "a".toList 1 (by decide)

/-- Claim C7: on success the output order is the first-seen order of the
dedup keys across the full processing sequence. -/
theorem agg_order_first_seen (blobs : List (List Row)) (out : List Row)
    (h : aggregate blobs = some out) :
    out.map List.headI = firstSeenKeys [] (blobs.flatten.map List.headI) := by
  rw [aggregate_eq_specDedup blobs out h]
  exact specDedup_keys blobs.flatten [] (aggregate_rows_ne_nil blobs out h)

/-- Witness for C7: batches producing records keyed `[A, B]` and `[B, C]`
aggregate in the order `[A, B, C]`. -/
theorem agg_order_first_seen_witness :
    ([["A", "1", "2", "3"], ["B", "1", "2", "3"], ["C", "1", "2", "3"]] : List Row).map
        List.headI =
      firstSeenKeys []
        ((([[["A", "1", "2", "3"], ["B", "1", "2", "3"]],
            [["B", "4", "5", "6"], ["C", "1", "2", "3"]]] : List (List Row)).flatten).map
          List.headI) :=
  agg_order_first_seen
    [[["A", "1", "2", "3"], ["B", "1", "2", "3"]],
     [["B", "4", "5", "6"], ["C", "1", "2", "3"]]]
    [["A", "1", "2", "3"], ["B", "1", "2", "3"], ["C", "1", "2", "3"]] (by decide)

/-- Claim C8: the doctest — splitting
`"hello\nworld\nearly\nin the\nmorning"` with maxBatchLength 12 yields
exactly the four stated batches and no error. -/
theorem split_doctest :
    split_text_into_batches "hello\nworld\nearly\nin the\nmorning".toList 12 =
      (some ["hello\nworld\n".toList, "early\n".toList, "in the\n".toList,
             "morning".toList], none) := by
  decide

/-- Claim C9: every batch of a successful split is non-empty, and
splitting the empty text returns the empty batch list with no error. -/
theorem split_batches_nonempty (text : List Char) (maxBatchLength : Nat)
    (hpos : 0 < maxBatchLength) :
    (∀ bs, (split_text_into_batches text maxBatchLength).1 = some bs →
        ∀ b ∈ bs, b ≠ []) ∧
      split_text_into_batches [] maxBatchLength = (some [], none) := by
  constructor
  · intro bs h
    exact splitLoop_ne_nil (splitlines text) maxBatchLength 0 [] [] 0 bs
      (splitlines_ne_nil text) (by simp) (by simp) (by simp) h
  · simp [split_text_into_batches, splitlines, splitlinesAux, splitLoop]

/-- Witness for C9 at `"x\ny"` with maxBatchLength 5. -/
theorem split_batches_nonempty_witness : "x\ny".toList ≠ [] :=
  (split_batches_nonempty "x\ny".toList 5 (by decide)).1 ["x\ny".toList] (by decide)
    "x\ny".toList (by simp)

/-- Claim C10: the emit/drop decision depends only on the record's first
field and the seen-key set, and an emitted record is written with all of
its fields unchanged regardless of field count: every output record
occurs verbatim in the input stream, and any stream with the same key
sequence succeeds with the same key sequence of emissions. -/
theorem agg_key_only_no_validation (blobs : List (List Row)) (out : List Row)
    (h : aggregate blobs = some out) :
    (∀ r ∈ out, r ∈ blobs.flatten) ∧
      ∀ blobs' : List (List Row),
        blobs'.flatten.map List.head? = blobs.flatten.map List.head? →
        ∃ out', aggregate blobs' = some out' ∧
          out'.map List.head? = out.map List.head? := by
  have hchar := aggregate_eq_specDedup blobs out h
  have hne : ∀ r ∈ blobs.flatten, r ≠ [] := aggregate_rows_ne_nil blobs out h
  constructor
  · intro r hr
    exact specDedup_mem blobs.flatten [] r (hchar ▸ hr)
  · intro blobs' hk
    have hne' : ∀ r ∈ blobs'.flatten, r ≠ [] := by
      intro r hr
      have hmem : r.head? ∈ blobs.flatten.map List.head? := by
        rw [← hk]
        exact List.mem_map_of_mem _ hr
      obtain ⟨r₀, hr₀, hhead⟩ := List.mem_map.mp hmem
      cases r with
      | nil =>
        cases r₀ with
        | nil => exact absurd rfl (hne [] hr₀)
        | cons a b => simp at hhead
      | cons a b => simp
    have hs := aggRows_isSome blobs'.flatten [] [] hne'
    rw [← aggBlobs_eq_flatten] at hs
    obtain ⟨p, hp⟩ := Option.isSome_iff_exists.mp hs
    refine ⟨p.2, by simp [aggregate, hp], ?_⟩
    have h2 := (aggRows_spec blobs'.flatten [] [] p
      (by rwa [aggBlobs_eq_flatten] at hp)).2
    rw [h2, hchar]
    simpa using specDedup_congr blobs'.flatten blobs.flatten [] hk

/-- Witness for C10: a record of a successful run occurs verbatim in the
input stream. -/
theorem agg_key_only_no_validation_witness :
    (["k", "f2", "f3"] : Row) ∈ ([[["k", "f2", "f3"]]] : List (List Row)).flatten :=
  (agg_key_only_no_validation [[["k", "f2", "f3"]]] [["k", "f2", "f3"]]
    (by decide)).1 ["k", "f2", "f3"] (by decide)

end ExtractFlashCards
